import Mathlib

/-! # fatima-log: the log-line renderer of `log_event.go`

A shallow embedding of `GeneralLogEvent` and its methods (`publish`,
`buildMessage`, `buildSourceDescription`, `setLevel`, `setArgs`,
`findFunctionName`), followed by theorems about them.

Conventions of the embedding.

* A Go `string` is a sequence of bytes, `List Nat`; `len` is `List.length`.
* A Go `int` is an `Int`.  Every integer of the code is a length, an index or a
  difference of two of them, far from the 64-bit limits, so no wrap-around is
  modelled.
* An operation that can raise a run-time panic (index or slice out of range)
  returns an `Option`; `none` is the panic.
* Functions of the Go standard library (`strings.LastIndex`, `strings.Split`,
  the `%s` and `%d` verbs) are modelled by their documented behaviour; the
  layout-driven `time.Time.Format`, the general `fmt.Sprintf` and
  `runtime.FuncForPC` are parameters, collected in `Env`.
-/

namespace FatimaLog

/-- A Go string: its bytes. -/
abbrev GoString := List Nat

/-- The bytes (UTF-8) of a string literal. -/
def bytes (s : String) : GoString :=
  s.toList.flatMap fun c => (String.utf8EncodeChar c).map UInt8.toNat

/-- Slice expression `s[i:]`; panics unless `0 ≤ i ≤ len(s)`. -/
def sliceFrom (s : GoString) (i : Int) : Option GoString :=
  if 0 ≤ i ∧ i ≤ (s.length : Int) then some (s.drop i.toNat) else none

/-- Slice expression `s[:j]`; panics unless `0 ≤ j ≤ len(s)`. -/
def sliceTo (s : GoString) (j : Int) : Option GoString :=
  if 0 ≤ j ∧ j ≤ (s.length : Int) then some (s.take j.toNat) else none

/-- Candidates `n, n-1, ..., 0` of `strings.LastIndex`, tried from the right. -/
def lastIndexFrom (s substr : GoString) : Nat → Int
  | 0 => if substr.isPrefixOf s then 0 else -1
  | n + 1 =>
    if substr.isPrefixOf (s.drop (n + 1)) then ((n + 1 : Nat) : Int)
    else lastIndexFrom s substr n

/-- The library function `strings.LastIndex(s, substr)`: the index of the last
instance of `substr` in `s`, or `-1` if there is none. -/
def LastIndex (s substr : GoString) : Int :=
  lastIndexFrom s substr s.length

/-- The library function `strings.Split(s, sep)` for a one-byte separator:
the pieces of `s` between the occurrences of `sep` (one more than there are
occurrences). -/
def Split (s : GoString) (sep : Nat) : List GoString :=
  s.splitOn sep

/-- Decimal digits of a natural number, most significant first; `fuel` bounds
the number of digits. -/
def digitsAux : Nat → Nat → GoString → GoString
  | 0, _, acc => acc
  | fuel + 1, n, acc =>
    if n < 10 then (48 + n) :: acc
    else digitsAux fuel (n / 10) ((48 + n % 10) :: acc)

/-- The verb `%d` on an `int`: an optional `-` and the decimal digits. -/
def decimal (i : Int) : GoString :=
  if i < 0 then 45 :: digitsAux (i.natAbs + 1) i.natAbs []
  else digitsAux (i.natAbs + 1) i.natAbs []

/-! ## The data model -/

/-- Modelled from the spec: the type `LogLevel` and its constants are declared
in another file of the package.  The spec gives the fixed set of severities
{TRACE, DEBUG, INFO, WARN, ERROR}; `other` stands for every further value of
the underlying integer type, which the `switch` of `setLevel` does not match. -/
inductive LogLevel where
  | LOG_ERROR
  | LOG_WARN
  | LOG_INFO
  | LOG_DEBUG
  | LOG_TRACE
  | other (code : Nat)
  deriving DecidableEq, Repr

/-- A value of the payload `[]interface{}`, tagged by its dynamic type; a value
of any further type carries its default rendering. -/
inductive Value where
  | str (s : GoString)
  | int (i : Int)
  | bool (b : Bool)
  | float (rendering : GoString)
  | other (rendering : GoString)
  deriving DecidableEq, Repr

/-- An instant (`time.Time`), kept abstract. -/
abbrev Time := Nat

/-- The process-wide `logPreference`, read by the renderer. -/
structure Preference where
  ShowMethod : Bool
  SourcePrintSize : Int
  deriving DecidableEq, Repr

/-- The library functions the renderer calls and this development keeps
abstract: `t.Format("2006-01-02 15:04:05.000")`, `fmt.Sprintf` on the payload,
and `runtime.FuncForPC(pc).Name()`. -/
structure Env where
  Format : Time → GoString
  Sprintf : GoString → List Value → GoString
  FuncForPC : Nat → GoString

/-- The struct `GeneralLogEvent`. -/
structure GeneralLogEvent where
  t : Time
  pc : Nat
  level : LogLevel
  levelStr : GoString
  file : GoString
  funcName : GoString
  line : Int
  message : List Value
  published : GoString
  deriving DecidableEq, Repr

/-- The alert sink, as the log of what it has received. -/
abbrev Sink := List (LogLevel × GoString)

/-- Modelled from the spec: `sentrySendMessage` is defined in another file of
the package.  The spec's alerting sink "accepts `(severity,
expandedMessageText)`", and the renderer only writes to it: the call appends
the pair to the log of the sink. -/
def sentrySendMessage (sink : Sink) (level : LogLevel) (express : GoString) : Sink :=
  sink ++ [(level, express)]

/-! ## The methods -/

/-- The function `findFunctionName`, given the symbol name the resolver
returned for `pc`. -/
def findFunctionName (env : Env) (pc : Nat) : Option GoString :=
  let funcName := env.FuncForPC pc
  let found := LastIndex funcName [46]
  if found < 0 then some funcName
  else sliceFrom funcName (found + 1)

/-- The constructor `newGeneralLogEvent`; `now` is the reading of `time.Now()`
and `zero` the zero value of `LogLevel`. -/
def newGeneralLogEvent (env : Env) (pref : Preference) (now : Time) (zero : LogLevel)
    (pc : Nat) (file : GoString) (line : Int) : Option GeneralLogEvent :=
  let event : GeneralLogEvent :=
    { t := now, pc := pc, level := zero, levelStr := [], file := file,
      funcName := [], line := line, message := [], published := [] }
  if pref.ShowMethod then
    (findFunctionName env pc).map fun name => { event with funcName := name }
  else some event

/-- The method `getMessage`. -/
def getMessage (this : GeneralLogEvent) : GoString :=
  this.published

/-- The method `getTime`. -/
def getTime (this : GeneralLogEvent) : Time :=
  this.t

/-- The method `setLevel`. -/
def setLevel (this : GeneralLogEvent) (level : LogLevel) : GeneralLogEvent :=
  let this := { this with level := level }
  match level with
  | .LOG_ERROR => { this with levelStr := bytes "ERROR" }
  | .LOG_WARN => { this with levelStr := bytes "WARN " }
  | .LOG_INFO => { this with levelStr := bytes "INFO " }
  | .LOG_DEBUG => { this with levelStr := bytes "DEBUG" }
  | .LOG_TRACE => { this with levelStr := bytes "TRACE" }
  | .other _ => this

/-- The method `setArgs`. -/
def setArgs (this : GeneralLogEvent) (args : List Value) : GeneralLogEvent :=
  { this with message := args }

/-- The padding loop of `buildSourceDescription`,
`for i := startIndex; i < 0; i++ { buffer.WriteByte(' ') }`, by the number of
iterations still to run (`-i`). -/
def padLoop : Nat → GoString → GoString
  | 0, buffer => buffer
  | n + 1, buffer => padLoop n (buffer ++ [32])

/-- The descriptor `message` that `buildSourceDescription` assembles before it
fits it to the width: `Sprintf("%s.%s():%d", source, funcName, line)` or
`Sprintf("%s:%d", source, line)`. -/
def sourceMessage (pref : Preference) (this : GeneralLogEvent) (source : GoString) : GoString :=
  if pref.ShowMethod then
    source ++ bytes "." ++ this.funcName ++ bytes "():" ++ decimal this.line
  else
    source ++ bytes ":" ++ decimal this.line

/-- The method `buildSourceDescription`. -/
def buildSourceDescription (pref : Preference) (this : GeneralLogEvent)
    (source : GoString) : Option GoString :=
  let message := sourceMessage pref this source
  let startIndex : Int := (message.length : Int) - pref.SourcePrintSize
  if startIndex ≥ 0 then
    sliceFrom message startIndex
  else
    some (padLoop (0 - startIndex).toNat [] ++ message)

/-- First part of `buildMessage`: the path `location` that remains after the
source root marker has been looked for. -/
def location (file : GoString) : Option GoString :=
  let found := LastIndex file (bytes "/src/")
  if found > 0 then
    sliceFrom file (found + 5)
  else
    let found := LastIndex file (bytes "/mod/")
    if found > 0 then
      sliceFrom file (found + 5)
    else
      some file

/-- The loop `for i, s := range tokens` of `buildMessage`, from index `i` on,
with the buffer written so far. -/
def tokenLoop (length : Int) : Nat → List GoString → GoString → Option GoString
  | _, [], buffer => some buffer
  | i, s :: rest, buffer =>
    match s with
    | [] => tokenLoop length (i + 1) rest buffer
    | c :: _ =>
      if (i : Int) < length - 1 then
        tokenLoop length (i + 1) rest (buffer ++ [c] ++ [46])
      else
        match sliceTo s ((s.length : Int) - 3) with
        | none => none
        | some piece => tokenLoop length (i + 1) rest (buffer ++ piece)

/-- Second part of `buildMessage`: the location tag written to `buffer` from
`location`. -/
def locationTag (location : GoString) : Option GoString :=
  let tokens := Split location 47
  let length : Int := tokens.length
  tokenLoop length 0 tokens []

/-- The location tag `buildMessage` computes for a file path. -/
def fileTag (file : GoString) : Option GoString :=
  (location file).bind locationTag

/-- The method `buildMessage`; the last statement is
`Sprintf("%s %s [%s] %s\n", t.Format(...), levelStr, buildSourceDescription(tag), f())`. -/
def buildMessage (env : Env) (pref : Preference) (this : GeneralLogEvent)
    (f : Unit → GoString) : Option GoString :=
  match fileTag this.file with
  | none => none
  | some tag =>
    match buildSourceDescription pref this tag with
    | none => none
    | some field =>
      some (env.Format this.t ++ bytes " " ++ this.levelStr ++ bytes " [" ++ field
        ++ bytes "] " ++ f () ++ bytes "\n")

/-- The expanded message `express` of `publish`; indexing `message[0]` panics on
an empty payload. -/
def expand (env : Env) (message : List Value) : Option GoString :=
  match message with
  | [] => none
  | .str format :: rest => some (env.Sprintf format rest)
  | v :: _ => some (env.Sprintf (bytes "%v") [v])

/-- The method `publish`, on the event and the alert sink. -/
def publish (env : Env) (pref : Preference) (this : GeneralLogEvent) (sink : Sink) :
    Option (GeneralLogEvent × Sink) :=
  match expand env this.message with
  | none => none
  | some express =>
    match buildMessage env pref this (fun _ => express) with
    | none => none
    | some text =>
      some ({ this with published := text }, sentrySendMessage sink this.level express)

/-! ## The library contract of `fmt.Sprintf` -/

/-- The default format (the verb `%v`) of a payload value, as the package `fmt`
documents it: a string is written as it is, an integer in base 10, a boolean as
`true` or `false`; a value of another type carries its rendering. -/
def defaultFormat : Value → GoString
  | .str s => s
  | .int i => decimal i
  | .bool b => if b then bytes "true" else bytes "false"
  | .float rendering => rendering
  | .other rendering => rendering

/-- The part of the documented behaviour of `fmt.Sprintf` that `publish` relies
on: the format `%v` with one operand gives the default format of the operand,
and a format without `%` and without operands is returned as it is. -/
structure SprintfLaws (env : Env) : Prop where
  verbV : ∀ v : Value, env.Sprintf (bytes "%v") [v] = defaultFormat v
  plain : ∀ format : GoString, 37 ∉ format → env.Sprintf format [] = format

/-! ## Sample inputs -/

/-- A sample environment: a fixed timestamp text, a `Sprintf` that returns its
format, and one symbol name. -/
def sampleEnv : Env :=
  { Format := fun _ => bytes "2023-04-12 13:31:00.000"
    Sprintf := fun format _ => format
    FuncForPC := fun _ => bytes "github.com/fatima-go/app/service.Handle" }

/-- A sample event: `/home/user/src/app/service/handler.go`, line 42, level
INFO, payload `["started"]`. -/
def sampleEvent : GeneralLogEvent :=
  { t := 0, pc := 0, level := .LOG_INFO, levelStr := bytes "INFO ",
    file := bytes "/home/user/src/app/service/handler.go", funcName := [],
    line := 42, message := [.str (bytes "started")], published := [] }

/-- The sample event after `publish` under width 20. -/
def sampleEventPublished : GeneralLogEvent :=
  { sampleEvent with
    published := bytes "2023-04-12 13:31:00.000 INFO  [      a.s.handler:42] started\n" }

/-- The sample event after `setLevel(LOG_WARN)`, `setArgs("retry")` and
`publish` under width 20. -/
def sampleEventWarned : GeneralLogEvent :=
  { sampleEvent with
    level := LogLevel.LOG_WARN, levelStr := bytes "WARN ",
    message := [Value.str (bytes "retry")],
    published := bytes "2023-04-12 13:31:00.000 WARN  [      a.s.handler:42] retry\n" }

/-- A sample `Sprintf` that follows `SprintfLaws`: it renders the format `%v`
with one operand and returns any other format as it is. -/
def sampleSprintf (format : GoString) (args : List Value) : GoString :=
  if format = bytes "%v" then
    match args with
    | [v] => defaultFormat v
    | _ => format
  else format

/-- The sample environment with `sampleSprintf`. -/
def sampleLibEnv : Env :=
  { sampleEnv with Sprintf := sampleSprintf }

/-- A sample `Sprintf` with operand substitution: each of the verbs `%s`, `%d`
and `%v` is replaced by the default format of the next operand, and every
other byte of the format is copied. -/
def sampleVerbs : GoString → List Value → GoString
  | [], _ => []
  | [c], _ => [c]
  | c :: verb :: rest, [] => c :: sampleVerbs (verb :: rest) []
  | c :: verb :: rest, v :: args =>
    if c = 37 ∧ (verb = 115 ∨ verb = 100 ∨ verb = 118) then
      defaultFormat v ++ sampleVerbs rest args
    else c :: sampleVerbs (verb :: rest) (v :: args)

/-- The sample environment with `sampleVerbs`. -/
def sampleVerbEnv : Env :=
  { sampleEnv with Sprintf := sampleVerbs }

/-- A sample event with a template and two operands:
`["retry %s, try %d", "dial", 3]` at level WARN. -/
def sampleEventTemplate : GeneralLogEvent :=
  { sampleEvent with
    level := LogLevel.LOG_WARN, levelStr := bytes "WARN ",
    message := [Value.str (bytes "retry %s, try %d"), Value.str (bytes "dial"), Value.int 3] }

/-- The event `sampleEventTemplate` after `publish` under width 20. -/
def sampleEventTemplatePublished : GeneralLogEvent :=
  { sampleEventTemplate with
    published := bytes "2023-04-12 13:31:00.000 WARN  [      a.s.handler:42] retry dial, try 3\n" }

/-! ## Auxiliary facts -/

theorem padLoop_eq (n : Nat) (buffer : GoString) :
    padLoop n buffer = buffer ++ List.replicate n 32 := by
  induction n generalizing buffer with
  | zero => simp [padLoop]
  | succ k ih =>
    rw [padLoop, ih, List.replicate_succ, List.append_assoc]
    rfl

theorem sliceFrom_of_le (s : GoString) (k : Nat) (hk : k ≤ s.length) :
    sliceFrom s (k : Int) = some (s.drop k) := by
  have h : (0 : Int) ≤ (k : Int) ∧ (k : Int) ≤ (s.length : Int) :=
    ⟨Int.ofNat_nonneg k, Int.ofNat_le.mpr hk⟩
  simp [sliceFrom, h]

theorem sliceTo_of_le (s : GoString) (k : Nat) (hk : k ≤ s.length) :
    sliceTo s (k : Int) = some (s.take k) := by
  have h : (0 : Int) ≤ (k : Int) ∧ (k : Int) ≤ (s.length : Int) :=
    ⟨Int.ofNat_nonneg k, Int.ofNat_le.mpr hk⟩
  simp [sliceTo, h]

/-- The descriptor when `ShowMethod` is off. -/
theorem sourceMessage_without_method (w : Int) (this : GeneralLogEvent) (source : GoString) :
    sourceMessage (Preference.mk false w) this source
      = source ++ bytes ":" ++ decimal this.line :=
  rfl

/-- The width fitting of `buildSourceDescription`, case by case, for a width
given as a natural number. -/
theorem buildSourceDescription_cases (pref : Preference) (this : GeneralLogEvent)
    (source : GoString) (w : Nat) (hw : pref.SourcePrintSize = (w : Int)) :
    buildSourceDescription pref this source =
      if w ≤ (sourceMessage pref this source).length then
        some ((sourceMessage pref this source).drop ((sourceMessage pref this source).length - w))
      else
        some (List.replicate (w - (sourceMessage pref this source).length) 32
          ++ sourceMessage pref this source) := by
  unfold buildSourceDescription
  simp only [hw]
  by_cases hle : w ≤ (sourceMessage pref this source).length
  · have h0 : ((sourceMessage pref this source).length : Int) - (w : Int) ≥ 0 := by omega
    have hcast : ((sourceMessage pref this source).length : Int) - (w : Int)
        = (((sourceMessage pref this source).length - w : Nat) : Int) := by omega
    rw [if_pos h0, if_pos hle, hcast]
    exact sliceFrom_of_le _ _ (Nat.sub_le _ _)
  · have h0 : ¬ (((sourceMessage pref this source).length : Int) - (w : Int) ≥ 0) := by omega
    have hn : (0 - (((sourceMessage pref this source).length : Int) - (w : Int))).toNat
        = w - (sourceMessage pref this source).length := by omega
    rw [if_neg h0, if_neg hle, hn, padLoop_eq]
    rfl

/-- What `lastIndexFrom` returns: `-1`, or a candidate index at which `substr`
starts. -/
theorem lastIndexFrom_spec (s substr : GoString) (n : Nat) :
    lastIndexFrom s substr n = -1 ∨
      ∃ k : Nat, k ≤ n ∧ lastIndexFrom s substr n = (k : Int) ∧ substr <+: s.drop k := by
  induction n with
  | zero =>
    unfold lastIndexFrom
    by_cases h : substr.isPrefixOf s = true
    · right
      exact ⟨0, Nat.le_refl 0, by simp [h], by
        simpa using List.isPrefixOf_iff_prefix.mp h⟩
    · left
      simp [h]
  | succ m ih =>
    unfold lastIndexFrom
    by_cases h : substr.isPrefixOf (s.drop (m + 1)) = true
    · right
      exact ⟨m + 1, Nat.le_refl _, by simp [h], List.isPrefixOf_iff_prefix.mp h⟩
    · rw [if_neg h]
      rcases ih with ih | ⟨k, hk, hval, hpre⟩
      · exact Or.inl ih
      · exact Or.inr ⟨k, Nat.le_succ_of_le hk, hval, hpre⟩

/-- A string in which `substr` does not occur has `LastIndex` equal to `-1`. -/
theorem LastIndex_of_absent (s substr : GoString) (h : ¬ substr <:+: s) :
    LastIndex s substr = -1 := by
  rcases lastIndexFrom_spec s substr s.length with hneg | ⟨k, _, _, hpre⟩
  · exact hneg
  · exact absurd (hpre.isInfix.trans (List.drop_suffix k s).isInfix) h

/-- A path in which neither marker occurs is kept whole. -/
theorem location_of_no_marker (file : GoString)
    (hsrc : ¬ bytes "/src/" <:+: file) (hmod : ¬ bytes "/mod/" <:+: file) :
    location file = some file := by
  unfold location
  simp only [LastIndex_of_absent file _ hsrc, LastIndex_of_absent file _ hmod]
  rfl

/-- The token loop on directory segments followed by the file name. -/
theorem tokenLoop_initials (f : GoString) (hf : 3 ≤ f.length) (length : Int) :
    ∀ (ds : List GoString), (∀ d ∈ ds, d ≠ []) → ∀ (i : Nat) (buffer : GoString),
      (i : Int) + (ds.length : Int) + 1 = length →
      tokenLoop length i (ds ++ [f]) buffer =
        some (buffer ++ (ds.map fun d => d.take 1 ++ [46]).flatten
          ++ f.take (f.length - 3)) := by
  intro ds
  induction ds with
  | nil =>
    intro _ i buffer hlen
    cases f with
    | nil => simp at hf
    | cons c f' =>
      have hnot : ¬ ((i : Int) < length - 1) := by
        simp only [List.length_nil] at hlen
        omega
      have hcast : (((c :: f').length : Nat) : Int) - 3 = (((c :: f').length - 3 : Nat) : Int) := by
        omega
      simp only [List.nil_append, tokenLoop, if_neg hnot, hcast,
        sliceTo_of_le (c :: f') ((c :: f').length - 3) (Nat.sub_le _ _),
        List.map_nil, List.flatten_nil, List.append_nil]
  | cons d ds ih =>
    intro hne i buffer hlen
    cases d with
    | nil => exact absurd rfl (hne [] (List.mem_cons_self _ _))
    | cons c d' =>
      have hlt : (i : Int) < length - 1 := by
        simp only [List.length_cons] at hlen
        push_cast at hlen
        omega
      have hlen' : ((i + 1 : Nat) : Int) + (ds.length : Int) + 1 = length := by
        simp only [List.length_cons] at hlen
        push_cast at hlen ⊢
        omega
      have hstep : tokenLoop length i ((c :: d') :: ds ++ [f]) buffer =
          tokenLoop length (i + 1) (ds ++ [f]) (buffer ++ [c] ++ [46]) := by
        simp only [List.cons_append, tokenLoop, if_pos hlt]
        rfl
      rw [hstep, ih (fun x hx => hne x (List.mem_cons_of_mem _ hx)) (i + 1) _ hlen']
      simp [List.append_assoc]

/-- No piece of `splitOnP` contains a separator. -/
theorem splitOnP_pieces (p : Nat → Bool) :
    ∀ (xs : GoString), ∀ tok ∈ xs.splitOnP p, ∀ x ∈ tok, p x = false := by
  intro xs
  induction xs with
  | nil =>
    intro tok htok x hx
    rw [List.splitOnP_nil, List.mem_singleton] at htok
    rw [htok] at hx
    exact absurd hx (List.not_mem_nil x)
  | cons a as ih =>
    intro tok htok x hx
    rw [List.splitOnP_cons] at htok
    by_cases hpa : p a = true
    · rw [if_pos hpa] at htok
      rcases List.mem_cons.mp htok with h | h
      · rw [h] at hx
        exact absurd hx (List.not_mem_nil x)
      · exact ih tok h x hx
    · rw [if_neg hpa] at htok
      cases hsp : as.splitOnP p with
      | nil => exact absurd hsp (List.splitOnP_ne_nil p as)
      | cons hd tl =>
        rw [hsp] at htok ih
        simp only [List.modifyHead_cons] at htok
        rcases List.mem_cons.mp htok with h | h
        · rw [h] at hx
          rcases List.mem_cons.mp hx with hxa | hxhd
          · rw [hxa]
            simpa using hpa
          · exact ih hd (List.mem_cons_self _ _) x hxhd
        · exact ih tok (List.mem_cons_of_mem _ h) x hx

/-- No token of `Split` contains the separator. -/
theorem Split_pieces (s : GoString) (sep : Nat) : ∀ tok ∈ Split s sep, sep ∉ tok := by
  intro tok htok hmem
  have h := splitOnP_pieces (fun x => x == sep) s tok htok sep hmem
  simp at h

/-- A string without the separator is its own single token. -/
theorem Split_of_not_mem (s : GoString) (sep : Nat) (h : sep ∉ s) : Split s sep = [s] := by
  unfold Split List.splitOn
  refine List.splitOnP_eq_single _ _ ?_
  intro x hx hp
  have hxs : x = sep := by simpa using hp
  exact h (hxs ▸ hx)

/-- The token loop writes no `/` when its tokens and its buffer have none. -/
theorem tokenLoop_no_slash (length : Int) :
    ∀ (tokens : List GoString), (∀ tok ∈ tokens, 47 ∉ tok) →
      ∀ (i : Nat) (buffer tag : GoString), 47 ∉ buffer →
        tokenLoop length i tokens buffer = some tag → 47 ∉ tag := by
  intro tokens
  induction tokens with
  | nil =>
    intro _ i buffer tag hbuf hrun
    simp only [tokenLoop, Option.some.injEq] at hrun
    exact hrun ▸ hbuf
  | cons s rest ih =>
    intro htok i buffer tag hbuf hrun
    have hrest : ∀ tok ∈ rest, 47 ∉ tok := fun tok h => htok tok (List.mem_cons_of_mem _ h)
    have hs : 47 ∉ s := htok s (List.mem_cons_self _ _)
    cases s with
    | nil =>
      simp only [tokenLoop] at hrun
      exact ih hrest (i + 1) buffer tag hbuf hrun
    | cons c s' =>
      have hc : c ≠ 47 := fun h => hs (h ▸ List.mem_cons_self _ _)
      simp only [tokenLoop] at hrun
      by_cases hlt : (i : Int) < length - 1
      · rw [if_pos hlt] at hrun
        refine ih hrest (i + 1) _ tag ?_ hrun
        simp only [List.mem_append, List.mem_singleton, not_or]
        exact ⟨⟨hbuf, fun h => hc h.symm⟩, by decide⟩
      · rw [if_neg hlt] at hrun
        split at hrun
        · exact absurd hrun (by simp)
        · rename_i piece hsl
          refine ih hrest (i + 1) _ tag ?_ hrun
          have hpiece : ∃ k, piece = (c :: s').take k := by
            unfold sliceTo at hsl
            split at hsl
            · exact ⟨_, (Option.some.inj hsl).symm⟩
            · exact absurd hsl (by simp)
          obtain ⟨k, hk⟩ := hpiece
          simp only [List.mem_append, not_or]
          refine ⟨hbuf, fun h => hs ?_⟩
          rw [hk] at h
          exact List.mem_of_mem_take h

/-- The location tag of a file path never contains `/`. -/
theorem fileTag_no_slash (file tag : GoString) (h : fileTag file = some tag) : 47 ∉ tag := by
  unfold fileTag at h
  cases hloc : location file with
  | none => simp [hloc] at h
  | some loc =>
    rw [hloc, Option.some_bind] at h
    unfold locationTag at h
    exact tokenLoop_no_slash _ _ (Split_pieces loc 47) 0 [] tag (List.not_mem_nil _) h

/-- A string without `/` contains no marker, so it is kept whole. -/
theorem location_of_no_slash (s : GoString) (h : 47 ∉ s) : location s = some s := by
  refine location_of_no_marker s ?_ ?_
  · intro hin
    exact h (hin.subset (by decide))
  · intro hin
    exact h (hin.subset (by decide))

/-- The location tag of a string without `/` that has at least 3 bytes: the
string without its last 3 bytes. -/
theorem fileTag_of_no_slash (s : GoString) (h : 47 ∉ s) (hlen : 3 ≤ s.length) :
    fileTag s = some (s.take (s.length - 3)) := by
  unfold fileTag
  rw [location_of_no_slash s h, Option.some_bind]
  unfold locationTag
  simp only [Split_of_not_mem s 47 h]
  have hrun := tokenLoop_initials s hlen (([s] : List GoString).length : Int) [] (by simp) 0 []
    (by simp)
  simpa using hrun

/-- What a call of `publish` that returns has done: the payload was expanded,
the tag and the field were built, the line was stored in `published` and the
pair `(level, express)` was sent to the sink. -/
theorem publish_some (env : Env) (pref : Preference) (this this1 : GeneralLogEvent)
    (sink sink1 : Sink) (h : publish env pref this sink = some (this1, sink1)) :
    ∃ express tag field, expand env this.message = some express ∧
      fileTag this.file = some tag ∧
      buildSourceDescription pref this tag = some field ∧
      this1 = { this with published := (env.Format this.t ++ bytes " " ++ this.levelStr
        ++ bytes " [" ++ field ++ bytes "] " ++ express ++ bytes "\n") } ∧
      sink1 = sink ++ [(this.level, express)] := by
  unfold publish at h
  cases hexp : expand env this.message with
  | none => simp [hexp] at h
  | some express =>
    simp only [hexp, buildMessage] at h
    cases htag : fileTag this.file with
    | none => simp [htag] at h
    | some tag =>
      simp only [htag] at h
      cases hfield : buildSourceDescription pref this tag with
      | none => simp [hfield] at h
      | some field =>
        simp only [hfield, Option.some.injEq, Prod.mk.injEq, sentrySendMessage] at h
        refine ⟨express, tag, field, ?_, ?_, ?_, h.1.symm, h.2.symm⟩ <;>
          first | assumption | rfl

/-- Conversely, `publish` returns as soon as the three steps do. -/
theorem publish_of_steps (env : Env) (pref : Preference) (this : GeneralLogEvent)
    (sink : Sink) (express tag field : GoString) (hexp : expand env this.message = some express)
    (htag : fileTag this.file = some tag)
    (hfield : buildSourceDescription pref this tag = some field) :
    publish env pref this sink =
      some ({ this with published := (env.Format this.t ++ bytes " " ++ this.levelStr
        ++ bytes " [" ++ field ++ bytes "] " ++ express ++ bytes "\n") },
        sink ++ [(this.level, express)]) := by
  unfold publish
  simp only [hexp, buildMessage, htag, hfield, sentrySendMessage]

/-- The field `published` is not read by `publish`, which overwrites it. -/
theorem publish_published (env : Env) (pref : Preference) (this : GeneralLogEvent)
    (text : GoString) (sink : Sink) :
    publish env pref { this with published := text } sink = publish env pref this sink :=
  rfl

/-! ## The fixed-width location field -/

/-- C1: for every tag, function name, line number and setting of `ShowMethod`,
and every width `W ≥ 0` (`SourcePrintSize`), `buildSourceDescription` returns
(it does not panic) a string of exactly `W` bytes. -/
theorem buildSourceDescription_length (pref : Preference) (this : GeneralLogEvent)
    (source : GoString) (hW : 0 ≤ pref.SourcePrintSize) :
    ∃ field, buildSourceDescription pref this source = some field ∧
      (field.length : Int) = pref.SourcePrintSize := by
  obtain ⟨w, hw⟩ := Int.eq_ofNat_of_zero_le hW
  rw [buildSourceDescription_cases pref this source w hw, hw]
  by_cases hle : w ≤ (sourceMessage pref this source).length
  · refine ⟨_, if_pos hle, ?_⟩
    rw [List.length_drop]
    omega
  · refine ⟨_, if_neg hle, ?_⟩
    rw [List.length_append, List.length_replicate]
    omega

theorem buildSourceDescription_length_witness :
    (0 : Int) ≤ (Preference.mk false 5).SourcePrintSize ∧
    ∃ field, buildSourceDescription (Preference.mk false 5) sampleEvent (bytes "a.s.handler")
        = some field ∧
      (field.length : Int) = (Preference.mk false 5).SourcePrintSize :=
  ⟨by decide,
    buildSourceDescription_length (Preference.mk false 5) sampleEvent (bytes "a.s.handler")
      (by decide)⟩

/-- C2: for every descriptor `d` (the assembled `message`) and width `W ≥ 0`:
when `len(d) ≥ W` the result is the last `W` bytes of `d`, which is `d` itself
when `len(d) = W`; when `len(d) < W` the result is `W - len(d)` spaces followed
by `d`.  A descriptor of 20 bytes with `W = 5` gives its last 5 bytes. -/
theorem buildSourceDescription_fit (pref : Preference) (this : GeneralLogEvent)
    (source : GoString) (hW : 0 ≤ pref.SourcePrintSize) :
    (pref.SourcePrintSize ≤ ((sourceMessage pref this source).length : Int) →
      buildSourceDescription pref this source =
        some ((sourceMessage pref this source).drop
          ((sourceMessage pref this source).length - pref.SourcePrintSize.toNat))) ∧
    (((sourceMessage pref this source).length : Int) = pref.SourcePrintSize →
      buildSourceDescription pref this source = some (sourceMessage pref this source)) ∧
    (((sourceMessage pref this source).length : Int) < pref.SourcePrintSize →
      buildSourceDescription pref this source =
        some (List.replicate
          (pref.SourcePrintSize.toNat - (sourceMessage pref this source).length) 32
            ++ sourceMessage pref this source)) ∧
    ((sourceMessage pref this source).length = 20 → pref.SourcePrintSize = 5 →
      buildSourceDescription pref this source =
        some ((sourceMessage pref this source).drop 15)) := by
  obtain ⟨w, hw⟩ := Int.eq_ofNat_of_zero_le hW
  have hcases := buildSourceDescription_cases pref this source w hw
  have htoNat : pref.SourcePrintSize.toNat = w := by omega
  rw [htoNat, hw]
  refine ⟨?_, ?_, ?_, ?_⟩
  · intro hle
    have hle' : w ≤ (sourceMessage pref this source).length := by omega
    rw [hcases, if_pos hle']
  · intro heq
    have heq' : (sourceMessage pref this source).length = w := by omega
    rw [hcases, if_pos (Nat.le_of_eq heq'.symm), heq', Nat.sub_self, List.drop_zero]
  · intro hlt
    have hlt' : ¬ w ≤ (sourceMessage pref this source).length := by omega
    rw [hcases, if_neg hlt']
  · intro h20 h5
    have hw5 : w = 5 := by omega
    have hle' : w ≤ (sourceMessage pref this source).length := by omega
    rw [hcases, if_pos hle', h20, hw5]

theorem buildSourceDescription_fit_witness :
    (0 : Int) ≤ (Preference.mk false 20).SourcePrintSize ∧
    buildSourceDescription (Preference.mk false 20) sampleEvent (bytes "a.s.handler") =
      some (List.replicate
        ((Preference.mk false 20).SourcePrintSize.toNat -
          (sourceMessage (Preference.mk false 20) sampleEvent (bytes "a.s.handler")).length) 32
        ++ sourceMessage (Preference.mk false 20) sampleEvent (bytes "a.s.handler")) :=
  ⟨by decide,
    (buildSourceDescription_fit (Preference.mk false 20) sampleEvent (bytes "a.s.handler")
      (by decide)).2.2.1 (by decide)⟩

/-! ## The location tag -/

/-- C3: for a path built from non-empty segments `d1, ..., dn, f` (`n ≥ 0`)
joined by `/`, with `len(f) ≥ 3` and neither `/src/` nor `/mod/` occurring in
it, the location tag is, for each `di` in turn, its first byte followed by `.`,
and then `f` without its last 3 bytes; `app/service/handler.go` gives
`a.s.handler`. -/
theorem fileTag_of_segments (ds : List GoString) (f : GoString)
    (hds : ∀ d ∈ ds, d ≠ [] ∧ 47 ∉ d) (hf : 47 ∉ f) (hlen : 3 ≤ f.length)
    (hsrc : ¬ bytes "/src/" <:+: (bytes "/").intercalate (ds ++ [f]))
    (hmod : ¬ bytes "/mod/" <:+: (bytes "/").intercalate (ds ++ [f])) :
    fileTag ((bytes "/").intercalate (ds ++ [f])) =
        some ((ds.map fun d => d.take 1 ++ bytes ".").flatten ++ f.take (f.length - 3)) ∧
      fileTag (bytes "app/service/handler.go") = some (bytes "a.s.handler") := by
  refine ⟨?_, by decide⟩
  have hsplit : Split ((bytes "/").intercalate (ds ++ [f])) 47 = ds ++ [f] := by
    have hsep : bytes "/" = [47] := by decide
    rw [hsep]
    have hx : ∀ l ∈ ds ++ [f], (47 : Nat) ∉ l := by
      intro l hl
      rcases List.mem_append.mp hl with h | h
      · exact (hds l h).2
      · rw [List.mem_singleton.mp h]
        exact hf
    have hne : ds ++ [f] ≠ [] := by simp
    exact List.splitOn_intercalate _ 47 hx hne
  have hdot : bytes "." = [46] := by decide
  unfold fileTag
  rw [location_of_no_marker _ hsrc hmod, Option.some_bind]
  unfold locationTag
  simp only [hsplit]
  rw [tokenLoop_initials f hlen _ ds (fun d hd => (hds d hd).1) 0 []
    (by simp [List.length_append]), hdot]
  simp

theorem fileTag_of_segments_witness :
    (∀ d ∈ [bytes "lib", bytes "net"], d ≠ [] ∧ 47 ∉ d) ∧ 47 ∉ bytes "dial.go" ∧
    3 ≤ (bytes "dial.go").length ∧
    fileTag ((bytes "/").intercalate ([bytes "lib", bytes "net"] ++ [bytes "dial.go"])) =
      some (([bytes "lib", bytes "net"].map fun d => d.take 1 ++ bytes ".").flatten
        ++ (bytes "dial.go").take ((bytes "dial.go").length - 3)) :=
  ⟨by decide, by decide, by decide,
    (fileTag_of_segments [bytes "lib", bytes "net"] (bytes "dial.go")
      (by decide) (by decide) (by decide) (by decide) (by decide)).1⟩

/-- C4: on the path `/src/app/main.go` the marker `/src/` occurs, at index 0,
and `buildMessage` does not discard it: the test `found > 0` fails, `location`
is the whole path, and the tag is `s.a.main` instead of the tag `a.main` of the
remainder `app/main.go`. -/
theorem fileTag_marker_at_index_zero :
    LastIndex (bytes "/src/app/main.go") (bytes "/src/") = 0 ∧
    location (bytes "/src/app/main.go") = some (bytes "/src/app/main.go") ∧
    fileTag (bytes "/src/app/main.go") = some (bytes "s.a.main") ∧
    locationTag (bytes "app/main.go") = some (bytes "a.main") := by
  decide

/-- C5: on an event whose file path ends in a segment of one byte
(`/home/user/src/app/x`), with a non-empty payload and width 20, `publish`
panics: the slice `s[:len(s)-3]` of `buildMessage` is out of range. -/
theorem publish_panics_on_short_file_name :
    sliceTo (bytes "x") (((bytes "x").length : Int) - 3) = none ∧
    fileTag (bytes "/home/user/src/app/x") = none ∧
    publish sampleEnv (Preference.mk false 20)
      { sampleEvent with file := bytes "/home/user/src/app/x" } [] = none := by
  decide

/-- C6: for the file `/home/user/src/app/service/handler.go` and line 42, with
`ShowMethod = false` and `SourcePrintSize = 20`: the remainder is
`app/service/handler.go`, the tag `a.s.handler`, the descriptor
`a.s.handler:42`, and the field between the brackets of the rendered line is
the descriptor after 6 spaces, 20 bytes in all. -/
theorem buildMessage_handler_example (env : Env) (t : Time) (pc : Nat) (level : LogLevel)
    (levelStr funcName published : GoString) (message : List Value) (f : Unit → GoString) :
    location (bytes "/home/user/src/app/service/handler.go")
      = some (bytes "app/service/handler.go") ∧
    fileTag (bytes "/home/user/src/app/service/handler.go") = some (bytes "a.s.handler") ∧
    sourceMessage (Preference.mk false 20)
      { t := t, pc := pc, level := level, levelStr := levelStr,
        file := bytes "/home/user/src/app/service/handler.go", funcName := funcName,
        line := 42, message := message, published := published } (bytes "a.s.handler")
      = bytes "a.s.handler:42" ∧
    buildSourceDescription (Preference.mk false 20)
      { t := t, pc := pc, level := level, levelStr := levelStr,
        file := bytes "/home/user/src/app/service/handler.go", funcName := funcName,
        line := 42, message := message, published := published } (bytes "a.s.handler")
      = some (bytes "      a.s.handler:42") ∧
    (bytes "      a.s.handler:42").length = 20 ∧
    bytes "      a.s.handler:42" = List.replicate 6 32 ++ bytes "a.s.handler:42" ∧
    buildMessage env (Preference.mk false 20)
      { t := t, pc := pc, level := level, levelStr := levelStr,
        file := bytes "/home/user/src/app/service/handler.go", funcName := funcName,
        line := 42, message := message, published := published } f
      = some (env.Format t ++ bytes " " ++ levelStr ++ bytes " ["
          ++ bytes "      a.s.handler:42" ++ bytes "] " ++ f () ++ bytes "\n") := by
  have htag : fileTag (bytes "/home/user/src/app/service/handler.go")
      = some (bytes "a.s.handler") := by decide
  have hfield : ∀ this : GeneralLogEvent, this.line = 42 →
      buildSourceDescription (Preference.mk false 20) this (bytes "a.s.handler")
        = some (bytes "      a.s.handler:42") := by
    intro this hline
    have hmsg : sourceMessage (Preference.mk false 20) this (bytes "a.s.handler")
        = bytes "a.s.handler:42" := by
      rw [sourceMessage_without_method, hline]
      decide
    rw [buildSourceDescription_cases _ this _ 20 rfl, hmsg]
    decide
  refine ⟨by decide, htag, ?_, hfield _ rfl, by decide, by decide, ?_⟩
  · rw [sourceMessage_without_method]
    show bytes "a.s.handler" ++ bytes ":" ++ decimal 42 = bytes "a.s.handler:42"
    decide
  · simp only [buildMessage, htag]
    rw [hfield _ rfl]

/-- C7, counterexample: the tag of `app/service/handler.go` is `a.s.handler`,
and the tag of `a.s.handler` is `a.s.hand`, a different string. -/
theorem fileTag_not_idempotent :
    3 ≤ (bytes "handler.go").length ∧
    fileTag (bytes "app/service/handler.go") = some (bytes "a.s.handler") ∧
    fileTag (bytes "a.s.handler") = some (bytes "a.s.hand") ∧
    fileTag (bytes "a.s.handler") ≠ fileTag (bytes "app/service/handler.go") := by
  decide

/-- C7, amended: the tag `t` of a file path contains no `/`, so compressing it
again strips no marker and takes no initials, but removes the last 3 bytes once
more: when `t` has at least 3 bytes its tag is `t` without its last 3 bytes
(a shorter string), and the tag of the empty tag is empty. -/
theorem fileTag_of_fileTag (file tag : GoString) (h : fileTag file = some tag) :
    47 ∉ tag ∧
    (3 ≤ tag.length →
      fileTag tag = some (tag.take (tag.length - 3)) ∧ fileTag tag ≠ some tag) ∧
    (tag = [] → fileTag tag = some tag) := by
  have hno := fileTag_no_slash file tag h
  refine ⟨hno, ?_, ?_⟩
  · intro hlen
    refine ⟨fileTag_of_no_slash tag hno hlen, ?_⟩
    rw [fileTag_of_no_slash tag hno hlen]
    intro heq
    have hl := congrArg List.length (Option.some.inj heq)
    rw [List.length_take] at hl
    omega
  · intro hnil
    rw [hnil]
    decide

theorem fileTag_of_fileTag_witness :
    fileTag (bytes "/home/user/src/app/service/handler.go") = some (bytes "a.s.handler") ∧
    47 ∉ bytes "a.s.handler" ∧
    (3 ≤ (bytes "a.s.handler").length →
      fileTag (bytes "a.s.handler")
          = some ((bytes "a.s.handler").take ((bytes "a.s.handler").length - 3)) ∧
        fileTag (bytes "a.s.handler") ≠ some (bytes "a.s.handler")) ∧
    (bytes "a.s.handler" = [] → fileTag (bytes "a.s.handler") = some (bytes "a.s.handler")) :=
  ⟨by decide,
    fileTag_of_fileTag (bytes "/home/user/src/app/service/handler.go") (bytes "a.s.handler")
      (by decide)⟩

/-! ## Publishing -/

/-- C8, counterexample: two consecutive calls of `publish` on the sample event,
from an empty sink, leave two entries for the event in the sink, not one. -/
theorem publish_twice_sends_twice :
    ((publish sampleEnv (Preference.mk false 20) sampleEvent []).bind fun r =>
        publish sampleEnv (Preference.mk false 20) r.1 r.2).map (fun r => r.2)
      = some [(LogLevel.LOG_INFO, bytes "started"), (LogLevel.LOG_INFO, bytes "started")] ∧
    ((publish sampleEnv (Preference.mk false 20) sampleEvent []).bind fun r =>
        publish sampleEnv (Preference.mk false 20) r.1 r.2).map (fun r => r.2.length)
      ≠ some 1 := by
  decide

/-- C8, amended: `publish` has no short-circuit on the cached text.  When a
first call returns, it has sent `(level, expanded message)` to the sink; a
second call under the same preference returns too, leaves the event as the
first call left it (the same text) and sends the same pair once more, so the
sink has received exactly two entries for the event. -/
theorem publish_twice (env : Env) (pref : Preference) (this this1 : GeneralLogEvent)
    (sink sink1 : Sink) (h : publish env pref this sink = some (this1, sink1)) :
    ∃ express, expand env this.message = some express ∧
      sink1 = sink ++ [(this.level, express)] ∧
      publish env pref this1 sink1
        = some (this1, sink ++ [(this.level, express), (this.level, express)]) := by
  obtain ⟨express, tag, field, hexp, htag, hfield, hthis, hsink⟩ :=
    publish_some env pref this this1 sink sink1 h
  refine ⟨express, hexp, hsink, ?_⟩
  rw [hthis, hsink, publish_published,
    publish_of_steps env pref this _ express tag field hexp htag hfield]
  simp

theorem publish_twice_witness :
    publish sampleEnv (Preference.mk false 20) sampleEvent []
      = some (sampleEventPublished, [(LogLevel.LOG_INFO, bytes "started")]) ∧
    ∃ express, expand sampleEnv sampleEvent.message = some express ∧
      [(LogLevel.LOG_INFO, bytes "started")] = [] ++ [(sampleEvent.level, express)] ∧
      publish sampleEnv (Preference.mk false 20) sampleEventPublished
          [(LogLevel.LOG_INFO, bytes "started")]
        = some (sampleEventPublished,
            [] ++ [(sampleEvent.level, express), (sampleEvent.level, express)]) :=
  ⟨by decide,
    publish_twice sampleEnv (Preference.mk false 20) sampleEvent sampleEventPublished []
      [(LogLevel.LOG_INFO, bytes "started")] (by decide)⟩

/-- C9, counterexample: the sample event published under width 20 and then
again under width 5 carries, after the second call, a text different from the
one it carried after the first. -/
theorem publish_after_preference_change :
    (publish sampleEnv (Preference.mk false 20) sampleEvent []).map (fun r => getMessage r.1)
      = some (bytes "2023-04-12 13:31:00.000 INFO  [      a.s.handler:42] started\n") ∧
    ((publish sampleEnv (Preference.mk false 20) sampleEvent []).bind fun r =>
        publish sampleEnv (Preference.mk false 5) r.1 r.2).map (fun r => getMessage r.1)
      = some (bytes "2023-04-12 13:31:00.000 INFO  [er:42] started\n") ∧
    ((publish sampleEnv (Preference.mk false 20) sampleEvent []).bind fun r =>
        publish sampleEnv (Preference.mk false 5) r.1 r.2).map (fun r => getMessage r.1)
      ≠ (publish sampleEnv (Preference.mk false 20) sampleEvent []).map
          (fun r => getMessage r.1) := by
  decide

/-- C9, amended: every call of `publish` derives the text anew, from the
captured fields of the event and the preference in effect at that call.  After
a call under `P1`, the text a second call under `P2` stores is the text a first
call under `P2` would have stored; it is the text of the first call when
`P2 = P1`. -/
theorem publish_rederives (env : Env) (P1 P2 : Preference) (this this1 : GeneralLogEvent)
    (sink sink1 : Sink) (h : publish env P1 this sink = some (this1, sink1)) :
    (publish env P2 this1 sink1).map (fun r => getMessage r.1)
        = (publish env P2 this sink).map (fun r => getMessage r.1) ∧
      (P2 = P1 →
        (publish env P2 this1 sink1).map (fun r => getMessage r.1) = some (getMessage this1)) := by
  obtain ⟨express, tag, field, hexp, htag, hfield, hthis, _⟩ :=
    publish_some env P1 this this1 sink sink1 h
  have hsame : (publish env P2 this1 sink1).map (fun r => getMessage r.1)
      = (publish env P2 this sink).map (fun r => getMessage r.1) := by
    rw [hthis, publish_published]
    cases hfield2 : buildSourceDescription P2 this tag with
    | none =>
      have hnone : ∀ sink2, publish env P2 this sink2 = none := by
        intro sink2
        unfold publish
        simp only [hexp, buildMessage, htag, hfield2]
      rw [hnone, hnone]
    | some field2 =>
      rw [publish_of_steps env P2 this sink express tag field2 hexp htag hfield2,
        publish_of_steps env P2 this sink1 express tag field2 hexp htag hfield2]
      rfl
  refine ⟨hsame, ?_⟩
  intro hP
  rw [hsame, hP, h]
  rfl

theorem publish_rederives_witness :
    publish sampleEnv (Preference.mk false 20) sampleEvent []
      = some (sampleEventPublished, [(LogLevel.LOG_INFO, bytes "started")]) ∧
    ((publish sampleEnv (Preference.mk false 5) sampleEventPublished
        [(LogLevel.LOG_INFO, bytes "started")]).map (fun r => getMessage r.1)
        = (publish sampleEnv (Preference.mk false 5) sampleEvent []).map
            (fun r => getMessage r.1) ∧
      (Preference.mk false 5 = Preference.mk false 20 →
        (publish sampleEnv (Preference.mk false 5) sampleEventPublished
          [(LogLevel.LOG_INFO, bytes "started")]).map (fun r => getMessage r.1)
          = some (getMessage sampleEventPublished))) :=
  ⟨by decide,
    publish_rederives sampleEnv (Preference.mk false 20) (Preference.mk false 5) sampleEvent
      sampleEventPublished [] [(LogLevel.LOG_INFO, bytes "started")] (by decide)⟩

/-! ## Severity labels -/

/-- C10: for each of the five recognized severities, `setLevel` stores the level
and sets `levelStr` to its entry of the fixed table (ERROR, WARN, INFO, DEBUG,
TRACE, each of exactly 5 bytes), and the line `publish` then stores, with any
payload set in between, carries that label after the timestamp. -/
theorem setLevel_label (this : GeneralLogEvent) (level : LogLevel) (label : GoString)
    (h : (level, label) ∈
      [(LogLevel.LOG_ERROR, bytes "ERROR"), (LogLevel.LOG_WARN, bytes "WARN "),
        (LogLevel.LOG_INFO, bytes "INFO "), (LogLevel.LOG_DEBUG, bytes "DEBUG"),
        (LogLevel.LOG_TRACE, bytes "TRACE")]) :
    (setLevel this level).level = level ∧
    (setLevel this level).levelStr = label ∧
    label.length = 5 ∧
    ∀ (env : Env) (pref : Preference) (args : List Value) (sink sink1 : Sink)
      (this1 : GeneralLogEvent),
      publish env pref (setArgs (setLevel this level) args) sink = some (this1, sink1) →
      ∃ field express, getMessage this1 =
        env.Format this.t ++ bytes " " ++ label ++ bytes " [" ++ field ++ bytes "] "
          ++ express ++ bytes "\n" := by
  have hrender : ∀ (ev : GeneralLogEvent) (env : Env) (pref : Preference) (sink sink1 : Sink)
      (this1 : GeneralLogEvent), publish env pref ev sink = some (this1, sink1) →
      ∃ field express, getMessage this1 =
        env.Format ev.t ++ bytes " " ++ ev.levelStr ++ bytes " [" ++ field ++ bytes "] "
          ++ express ++ bytes "\n" := by
    intro ev env pref sink sink1 this1 hpub
    obtain ⟨express, _, field, _, _, _, hthis, _⟩ := publish_some env pref ev this1 sink sink1 hpub
    exact ⟨field, express, by rw [hthis]; rfl⟩
  simp only [List.mem_cons, Prod.mk.injEq, List.mem_singleton, List.not_mem_nil, or_false] at h
  rcases h with ⟨rfl, rfl⟩ | ⟨rfl, rfl⟩ | ⟨rfl, rfl⟩ | ⟨rfl, rfl⟩ | ⟨rfl, rfl⟩ <;>
    exact ⟨rfl, rfl, by decide, fun env pref args sink sink1 this1 hpub =>
      hrender _ env pref sink sink1 this1 hpub⟩

theorem setLevel_label_witness :
    (LogLevel.LOG_WARN, bytes "WARN ") ∈
      [(LogLevel.LOG_ERROR, bytes "ERROR"), (LogLevel.LOG_WARN, bytes "WARN "),
        (LogLevel.LOG_INFO, bytes "INFO "), (LogLevel.LOG_DEBUG, bytes "DEBUG"),
        (LogLevel.LOG_TRACE, bytes "TRACE")] ∧
    publish sampleEnv (Preference.mk false 20)
        (setArgs (setLevel sampleEvent LogLevel.LOG_WARN) [Value.str (bytes "retry")]) []
      = some (sampleEventWarned, [(LogLevel.LOG_WARN, bytes "retry")]) ∧
    ∃ field express,
      getMessage sampleEventWarned
        = sampleEnv.Format sampleEvent.t ++ bytes " " ++ bytes "WARN " ++ bytes " [" ++ field
          ++ bytes "] " ++ express ++ bytes "\n" :=
  ⟨by decide, by decide,
    (setLevel_label sampleEvent LogLevel.LOG_WARN (bytes "WARN ") (by decide)).2.2.2
      sampleEnv (Preference.mk false 20) [Value.str (bytes "retry")] []
      [(LogLevel.LOG_WARN, bytes "retry")] sampleEventWarned (by decide)⟩

/-! ## The descriptor before width fitting -/

/-- The byte of a decimal digit character. -/
theorem bytes_digitChar (d : Nat) (hd : d < 10) :
    (String.utf8EncodeChar (Nat.digitChar d)).map UInt8.toNat = [48 + d] := by
  interval_cases d <;> decide

/-- The digit loop of `decimal` follows the digit loop of the library. -/
theorem digitsAux_eq_toDigitsCore (fuel : Nat) :
    ∀ (n : Nat) (ds : List Char),
      digitsAux fuel n (ds.flatMap fun c => (String.utf8EncodeChar c).map UInt8.toNat)
        = (Nat.toDigitsCore 10 fuel n ds).flatMap
            fun c => (String.utf8EncodeChar c).map UInt8.toNat := by
  induction fuel with
  | zero => intro n ds; rfl
  | succ k ih =>
    intro n ds
    unfold digitsAux Nat.toDigitsCore
    by_cases hn : n < 10
    · have h0 : n / 10 = 0 := Nat.div_eq_of_lt hn
      simp only [if_pos hn, h0, if_true, List.flatMap_cons, Nat.mod_eq_of_lt hn,
        bytes_digitChar n hn]
      rfl
    · have h0 : ¬ n / 10 = 0 := by omega
      simp only [if_neg hn, if_neg h0]
      rw [← ih]
      simp only [List.flatMap_cons, bytes_digitChar (n % 10) (Nat.mod_lt _ (by decide))]
      rfl

/-- The model of `%d` is the decimal numeral of the integer. -/
theorem decimal_eq_toString (i : Int) : decimal i = bytes (toString i) := by
  have hnat : ∀ m : Nat, digitsAux (m + 1) m [] = bytes (toString m) := by
    intro m
    have h := digitsAux_eq_toDigitsCore (m + 1) m []
    simp only [List.flatMap_nil] at h
    rw [h]
    rfl
  cases i with
  | ofNat m =>
    have hnn : ¬ ((Int.ofNat m) < 0) := by simp
    unfold decimal
    rw [if_neg hnn]
    exact hnat m
  | negSucc m =>
    have hneg : Int.negSucc m < 0 := Int.negSucc_lt_zero m
    have hminus : List.map UInt8.toNat (String.utf8EncodeChar '-') = [45] := by decide
    unfold decimal
    rw [if_pos hneg]
    show 45 :: digitsAux (m + 1 + 1) (m + 1) [] = bytes ("-" ++ toString (m + 1))
    rw [hnat (m + 1)]
    simp [bytes, String.data_append]
    rw [hminus]
    rfl

/-- With a width equal to the length of the descriptor, the method returns the
descriptor itself. -/
theorem buildSourceDescription_own_width (b : Bool) (this : GeneralLogEvent)
    (source : GoString) (w : Nat)
    (hw : w = (sourceMessage (Preference.mk b (w : Int)) this source).length) :
    buildSourceDescription (Preference.mk b (w : Int)) this source
      = some (sourceMessage (Preference.mk b (w : Int)) this source) := by
  rw [buildSourceDescription_cases _ this source w rfl, if_pos (Nat.le_of_eq hw), ← hw,
    Nat.sub_self, List.drop_zero]

/-- C11: for every location tag, function name and line number, the descriptor
that `buildSourceDescription` assembles before it fits the width is the tag,
`:` and the decimal numeral of the line when `ShowMethod` is off, and the tag,
`.`, the function name, `():` and the decimal numeral of the line when it is
on; with a width equal to its length the method returns that descriptor. -/
theorem sourceMessage_descriptor (w : Int) (this : GeneralLogEvent) (source : GoString) :
    sourceMessage (Preference.mk false w) this source
      = source ++ bytes ":" ++ bytes (toString this.line) ∧
    sourceMessage (Preference.mk true w) this source
      = source ++ bytes "." ++ this.funcName ++ bytes "():" ++ bytes (toString this.line) ∧
    buildSourceDescription
        (Preference.mk false
          ((source ++ bytes ":" ++ bytes (toString this.line)).length : Nat)) this source
      = some (source ++ bytes ":" ++ bytes (toString this.line)) ∧
    buildSourceDescription
        (Preference.mk true
          ((source ++ bytes "." ++ this.funcName ++ bytes "():"
            ++ bytes (toString this.line)).length : Nat)) this source
      = some (source ++ bytes "." ++ this.funcName ++ bytes "():"
          ++ bytes (toString this.line)) := by
  have hoff : ∀ v : Int, sourceMessage (Preference.mk false v) this source
      = source ++ bytes ":" ++ bytes (toString this.line) := by
    intro v
    rw [← decimal_eq_toString]
    rfl
  have hon : ∀ v : Int, sourceMessage (Preference.mk true v) this source
      = source ++ bytes "." ++ this.funcName ++ bytes "():" ++ bytes (toString this.line) := by
    intro v
    rw [← decimal_eq_toString]
    rfl
  refine ⟨hoff w, hon w, ?_, ?_⟩
  · have h := buildSourceDescription_own_width false this source
      (source ++ bytes ":" ++ bytes (toString this.line)).length (by rw [hoff])
    rw [hoff] at h
    exact h
  · have h := buildSourceDescription_own_width true this source
      (source ++ bytes "." ++ this.funcName ++ bytes "():"
        ++ bytes (toString this.line)).length (by rw [hon])
    rw [hon] at h
    exact h

/-! ## The rendered line -/

/-- A field that `buildSourceDescription` returns has exactly `SourcePrintSize`
bytes; with a negative size the method panics. -/
theorem buildSourceDescription_some_length (pref : Preference) (this : GeneralLogEvent)
    (source field : GoString) (h : buildSourceDescription pref this source = some field) :
    (field.length : Int) = pref.SourcePrintSize := by
  by_cases hW : 0 ≤ pref.SourcePrintSize
  · obtain ⟨w, hw⟩ := Int.eq_ofNat_of_zero_le hW
    rw [buildSourceDescription_cases pref this source w hw] at h
    rw [hw]
    by_cases hle : w ≤ (sourceMessage pref this source).length
    · rw [if_pos hle] at h
      rw [← Option.some.inj h, List.length_drop]
      omega
    · rw [if_neg hle] at h
      rw [← Option.some.inj h, List.length_append, List.length_replicate]
      omega
  · exfalso
    unfold buildSourceDescription at h
    have hstart : ((sourceMessage pref this source).length : Int) - pref.SourcePrintSize ≥ 0 := by
      omega
    have hout : ¬ (0 ≤ ((sourceMessage pref this source).length : Int) - pref.SourcePrintSize ∧
        ((sourceMessage pref this source).length : Int) - pref.SourcePrintSize
          ≤ ((sourceMessage pref this source).length : Int)) := by
      omega
    simp only [if_pos hstart, sliceFrom, if_neg hout] at h
    exact absurd h (by simp)

/-- C12: when `publish` returns, the text it stored, which `getMessage` returns,
is the timestamp text, a space, the label `levelStr`, ` [`, the location field
of exactly `SourcePrintSize` bytes, `] `, the expanded message and a newline;
so the text ends with the expanded message followed by a newline.  The expanded
message is `Sprintf(format, rest...)` when the payload starts with the string
`format`, and `Sprintf("%v", v)` when it starts with a value `v` that is not a
string. -/
theorem publish_text (env : Env) (pref : Preference) (this this1 : GeneralLogEvent)
    (sink sink1 : Sink) (h : publish env pref this sink = some (this1, sink1)) :
    ∃ field express, expand env this.message = some express ∧
      this.message ≠ [] ∧
      (∀ (format : GoString) (rest : List Value),
        this.message = Value.str format :: rest → express = env.Sprintf format rest) ∧
      (∀ (v : Value) (rest : List Value), this.message = v :: rest →
        (∀ s, v ≠ Value.str s) → express = env.Sprintf (bytes "%v") [v]) ∧
      (∃ tag, fileTag this.file = some tag ∧
        buildSourceDescription pref this tag = some field) ∧
      (field.length : Int) = pref.SourcePrintSize ∧
      getMessage this1 = env.Format this.t ++ bytes " " ++ this.levelStr ++ bytes " ["
        ++ field ++ bytes "] " ++ express ++ bytes "\n" ∧
      express ++ bytes "\n" <:+ getMessage this1 := by
  obtain ⟨express, tag, field, hexp, htag, hfield, hthis, _⟩ :=
    publish_some env pref this this1 sink sink1 h
  have htext : getMessage this1 = env.Format this.t ++ bytes " " ++ this.levelStr ++ bytes " ["
      ++ field ++ bytes "] " ++ express ++ bytes "\n" := by
    rw [hthis]
    rfl
  have hne : this.message ≠ [] := by
    intro hnil
    rw [hnil] at hexp
    simp [expand] at hexp
  have hstr : ∀ (format : GoString) (rest : List Value),
      this.message = Value.str format :: rest → express = env.Sprintf format rest := by
    intro format rest hmsg
    rw [hmsg] at hexp
    simp only [expand] at hexp
    exact (Option.some.inj hexp).symm
  have hother : ∀ (v : Value) (rest : List Value), this.message = v :: rest →
      (∀ s, v ≠ Value.str s) → express = env.Sprintf (bytes "%v") [v] := by
    intro v rest hmsg hv
    rw [hmsg] at hexp
    cases v with
    | str s => exact absurd rfl (hv s)
    | int i => simp only [expand] at hexp; exact (Option.some.inj hexp).symm
    | bool b => simp only [expand] at hexp; exact (Option.some.inj hexp).symm
    | float r => simp only [expand] at hexp; exact (Option.some.inj hexp).symm
    | other r => simp only [expand] at hexp; exact (Option.some.inj hexp).symm
  refine ⟨field, express, hexp, hne, hstr, hother, ⟨tag, htag, hfield⟩,
    buildSourceDescription_some_length pref this tag field hfield, htext, ?_⟩
  rw [htext]
  exact ⟨env.Format this.t ++ bytes " " ++ this.levelStr ++ bytes " [" ++ field ++ bytes "] ",
    by simp [List.append_assoc]⟩

set_option maxRecDepth 8192 in
theorem publish_text_witness :
    publish sampleVerbEnv (Preference.mk false 20) sampleEventTemplate []
      = some (sampleEventTemplatePublished,
          [(LogLevel.LOG_WARN, bytes "retry dial, try 3")]) ∧
    sampleVerbEnv.Sprintf (bytes "retry %s, try %d") [Value.str (bytes "dial"), Value.int 3]
      = bytes "retry dial, try 3" ∧
    ∃ field express, expand sampleVerbEnv sampleEventTemplate.message = some express ∧
      sampleEventTemplate.message ≠ [] ∧
      (∀ (format : GoString) (rest : List Value),
        sampleEventTemplate.message = Value.str format :: rest →
        express = sampleVerbEnv.Sprintf format rest) ∧
      (∀ (v : Value) (rest : List Value), sampleEventTemplate.message = v :: rest →
        (∀ s, v ≠ Value.str s) → express = sampleVerbEnv.Sprintf (bytes "%v") [v]) ∧
      (∃ tag, fileTag sampleEventTemplate.file = some tag ∧
        buildSourceDescription (Preference.mk false 20) sampleEventTemplate tag
          = some field) ∧
      (field.length : Int) = (Preference.mk false 20).SourcePrintSize ∧
      getMessage sampleEventTemplatePublished
        = sampleVerbEnv.Format sampleEventTemplate.t ++ bytes " "
          ++ sampleEventTemplate.levelStr ++ bytes " [" ++ field ++ bytes "] " ++ express
          ++ bytes "\n" ∧
      express ++ bytes "\n" <:+ getMessage sampleEventTemplatePublished :=
  ⟨by decide, by decide,
    publish_text sampleVerbEnv (Preference.mk false 20) sampleEventTemplate
      sampleEventTemplatePublished [] [(LogLevel.LOG_WARN, bytes "retry dial, try 3")]
      (by decide)⟩

/-! ## Message expansion -/

/-- The sample environment follows the laws of `Sprintf`. -/
theorem sampleLibEnv_laws : SprintfLaws sampleLibEnv := by
  refine ⟨?_, ?_⟩
  · intro v
    show sampleSprintf (bytes "%v") [v] = defaultFormat v
    unfold sampleSprintf
    rw [if_pos rfl]
  · intro format hno
    show sampleSprintf format [] = format
    unfold sampleSprintf
    have hne : format ≠ bytes "%v" := by
      intro heq
      rw [heq] at hno
      exact hno (by decide)
    rw [if_neg hne]

/-- C13: with `fmt.Sprintf` behaving as documented, a payload whose first value
is not a string expands to the default (`%v`) format of that first value,
whatever values follow it, and this is the text `publish` sends to the sink and
puts at the end of the line; the payload `[42]` expands to `42`; a payload of
one string without `%` expands to that string. -/
theorem expand_payload (env : Env) (hlib : SprintfLaws env) :
    (∀ (v : Value) (rest : List Value), (∀ s, v ≠ Value.str s) →
      expand env (v :: rest) = some (defaultFormat v)) ∧
    expand env [Value.int 42] = some (bytes "42") ∧
    (∀ s : GoString, 37 ∉ s → expand env [Value.str s] = some s) ∧
    (∀ (pref : Preference) (this this1 : GeneralLogEvent) (sink sink1 : Sink) (v : Value)
      (rest : List Value), this.message = v :: rest → (∀ s, v ≠ Value.str s) →
      publish env pref this sink = some (this1, sink1) →
      sink1 = sink ++ [(this.level, defaultFormat v)] ∧
        defaultFormat v ++ bytes "\n" <:+ getMessage this1) := by
  have hfirst : ∀ (v : Value) (rest : List Value), (∀ s, v ≠ Value.str s) →
      expand env (v :: rest) = some (defaultFormat v) := by
    intro v rest hv
    cases v with
    | str s => exact absurd rfl (hv s)
    | int i => simp only [expand, hlib.verbV]
    | bool b => simp only [expand, hlib.verbV]
    | float r => simp only [expand, hlib.verbV]
    | other r => simp only [expand, hlib.verbV]
  refine ⟨hfirst, ?_, ?_, ?_⟩
  · rw [hfirst (Value.int 42) [] (fun s h => by cases h)]
    decide
  · intro s hs
    simp only [expand, hlib.plain s hs]
  · intro pref this this1 sink sink1 v rest hmsg hv hpub
    obtain ⟨express, _, field, hexp, _, _, hthis, hsink⟩ :=
      publish_some env pref this this1 sink sink1 hpub
    rw [hmsg, hfirst v rest hv] at hexp
    rw [← Option.some.inj hexp] at hsink hthis
    refine ⟨hsink, ?_⟩
    rw [hthis]
    exact ⟨env.Format this.t ++ bytes " " ++ this.levelStr ++ bytes " [" ++ field ++ bytes "] ",
      by simp [getMessage, List.append_assoc]⟩

theorem expand_payload_witness :
    SprintfLaws sampleLibEnv ∧
    expand sampleLibEnv [Value.int 42, Value.str (bytes "ignored")] = some (bytes "42") ∧
    expand sampleLibEnv [Value.str (bytes "started")] = some (bytes "started") :=
  ⟨sampleLibEnv_laws,
    ((expand_payload sampleLibEnv sampleLibEnv_laws).1 (Value.int 42)
      [Value.str (bytes "ignored")] (fun s h => by cases h)).trans (by decide),
    (expand_payload sampleLibEnv sampleLibEnv_laws).2.2.1 (bytes "started") (by decide)⟩

/-! ## The rightmost marker -/

/-- The search `lastIndexFrom` returns the greatest candidate at which `substr`
starts. -/
theorem lastIndexFrom_eq (s substr : GoString) :
    ∀ (n k : Nat), k ≤ n → substr <+: s.drop k →
      (∀ j, j ≤ n → k < j → ¬ substr <+: s.drop j) →
      lastIndexFrom s substr n = (k : Int) := by
  intro n
  induction n with
  | zero =>
    intro k hk hocc _
    have hk0 : k = 0 := Nat.le_zero.mp hk
    subst hk0
    have hpre : substr.isPrefixOf s = true := by
      simpa using List.isPrefixOf_iff_prefix.mpr hocc
    simp [lastIndexFrom, hpre]
  | succ m ih =>
    intro k hk hocc hmax
    unfold lastIndexFrom
    by_cases hkm : k = m + 1
    · subst hkm
      rw [if_pos (List.isPrefixOf_iff_prefix.mpr hocc)]
    · have hkm1 : k ≤ m := by omega
      have hnot : ¬ substr.isPrefixOf (s.drop (m + 1)) = true := fun h =>
        hmax (m + 1) (Nat.le_refl _) (by omega) (List.isPrefixOf_iff_prefix.mp h)
      rw [if_neg hnot]
      exact ih k hkm1 hocc (fun j hj hkj => hmax j (Nat.le_succ_of_le hj) hkj)

/-- Without an occurrence at a positive candidate the search returns 0 or -1. -/
theorem lastIndexFrom_le_zero (s substr : GoString) (n : Nat)
    (h : ∀ j, j ≤ n → 0 < j → ¬ substr <+: s.drop j) : lastIndexFrom s substr n ≤ 0 := by
  rcases lastIndexFrom_spec s substr n with hneg | ⟨k, hk, hval, hpre⟩
  · rw [hneg]
    decide
  · have hk0 : k = 0 := by
      by_contra hne
      exact h k hk (Nat.pos_of_ne_zero hne) hpre
    rw [hval, hk0]
    rfl

/-- The path after a marker of 5 bytes whose rightmost occurrence is at a
positive index `k`. -/
theorem sliceFrom_after_marker (file marker : GoString) (hm : marker.length = 5) (k : Nat)
    (hocc : marker <+: file.drop k) :
    sliceFrom file ((k : Int) + 5) = some (file.drop (k + 5)) ∧ k ≤ file.length := by
  have hlen : marker.length ≤ (file.drop k).length := hocc.length_le
  rw [hm, List.length_drop] at hlen
  have hk5 : k + 5 ≤ file.length := by omega
  refine ⟨?_, by omega⟩
  have hcast : (k : Int) + 5 = ((k + 5 : Nat) : Int) := by push_cast; rfl
  rw [hcast]
  exact sliceFrom_of_le file (k + 5) hk5

/-- C14: the markers are tried in priority order.  When `/src/` occurs at an
index `> 0`, `buildMessage` keeps the part after its rightmost occurrence,
wherever `/mod/` occurs; when `/src/` occurs at no index `> 0` and `/mod/`
occurs at one, it keeps the part after the rightmost `/mod/`.  The path
`/go/src/app/mod/x/file.go` gives the tag `a.m.x.file`. -/
theorem location_priority (file : GoString) :
    (∀ k : Nat, 0 < k → bytes "/src/" <+: file.drop k →
      (∀ j, j ≤ file.length → k < j → ¬ bytes "/src/" <+: file.drop j) →
      location file = some (file.drop (k + 5)) ∧
        fileTag file = locationTag (file.drop (k + 5))) ∧
    ((∀ j, j ≤ file.length → 0 < j → ¬ bytes "/src/" <+: file.drop j) →
      ∀ k : Nat, 0 < k → bytes "/mod/" <+: file.drop k →
      (∀ j, j ≤ file.length → k < j → ¬ bytes "/mod/" <+: file.drop j) →
      location file = some (file.drop (k + 5)) ∧
        fileTag file = locationTag (file.drop (k + 5))) ∧
    (LastIndex (bytes "/go/src/app/mod/x/file.go") (bytes "/src/") = 3 ∧
      LastIndex (bytes "/go/src/app/mod/x/file.go") (bytes "/mod/") = 11 ∧
      fileTag (bytes "/go/src/app/mod/x/file.go") = some (bytes "a.m.x.file")) := by
  have htag : ∀ rest : GoString, location file = some rest → fileTag file = locationTag rest := by
    intro rest hloc
    unfold fileTag
    rw [hloc, Option.some_bind]
  refine ⟨?_, ?_, by decide⟩
  · intro k hk hocc hmax
    obtain ⟨hslice, hkl⟩ := sliceFrom_after_marker file (bytes "/src/") (by decide) k hocc
    have hidx : LastIndex file (bytes "/src/") = (k : Int) :=
      lastIndexFrom_eq file (bytes "/src/") file.length k hkl hocc hmax
    have hloc : location file = some (file.drop (k + 5)) := by
      unfold location
      simp only [hidx]
      rw [if_pos (by omega), hslice]
    exact ⟨hloc, htag _ hloc⟩
  · intro hnosrc k hk hocc hmax
    obtain ⟨hslice, hkl⟩ := sliceFrom_after_marker file (bytes "/mod/") (by decide) k hocc
    have hsrc : ¬ LastIndex file (bytes "/src/") > 0 := by
      have h := lastIndexFrom_le_zero file (bytes "/src/") file.length hnosrc
      unfold LastIndex
      omega
    have hidx : LastIndex file (bytes "/mod/") = (k : Int) :=
      lastIndexFrom_eq file (bytes "/mod/") file.length k hkl hocc hmax
    have hloc : location file = some (file.drop (k + 5)) := by
      unfold location
      simp only [hidx, if_neg hsrc]
      rw [if_pos (by omega), hslice]
    exact ⟨hloc, htag _ hloc⟩

theorem location_priority_witness :
    (0 < 3 ∧ bytes "/src/" <+: (bytes "/go/src/app/mod/x/file.go").drop 3 ∧
      bytes "/mod/" <+: (bytes "/go/src/app/mod/x/file.go").drop 11) ∧
    location (bytes "/go/src/app/mod/x/file.go")
      = some ((bytes "/go/src/app/mod/x/file.go").drop (3 + 5)) ∧
    fileTag (bytes "/go/src/app/mod/x/file.go")
      = locationTag ((bytes "/go/src/app/mod/x/file.go").drop (3 + 5)) :=
  ⟨by decide,
    (location_priority (bytes "/go/src/app/mod/x/file.go")).1 3 (by decide) (by decide)
      (by decide)⟩

/-! ## Empty path segments -/

/-- Splitting at a separator splits the two sides. -/
theorem Split_append_sep (sep : Nat) (b : GoString) :
    ∀ a : GoString, Split (a ++ sep :: b) sep = Split a sep ++ Split b sep := by
  intro a
  unfold Split List.splitOn
  induction a with
  | nil =>
    rw [List.nil_append, List.splitOnP_cons, List.splitOnP_nil]
    simp
  | cons x a ih =>
    rw [List.cons_append, List.splitOnP_cons, List.splitOnP_cons, ih]
    by_cases hx : (x == sep) = true
    · simp [hx]
    · simp only [hx, if_false]
      cases hsp : List.splitOnP (fun y => y == sep) a with
      | nil => exact absurd hsp (List.splitOnP_ne_nil _ a)
      | cons hd tl => rfl

/-- Joining a segment to a non-empty list of segments. -/
theorem intercalate_cons_cons (x y : GoString) (l : List GoString) :
    [47].intercalate (x :: y :: l) = x ++ 47 :: [47].intercalate (y :: l) := by
  simp [List.intercalate, List.intersperse]

/-- Joining two non-empty lists of segments. -/
theorem intercalate_append (ys : List GoString) (hy : ys ≠ []) :
    ∀ xs : List GoString, xs ≠ [] →
      [47].intercalate (xs ++ ys) = [47].intercalate xs ++ 47 :: [47].intercalate ys := by
  intro xs
  induction xs with
  | nil => intro hx; exact absurd rfl hx
  | cons x xs ih =>
    intro _
    cases xs with
    | nil =>
      cases ys with
      | nil => exact absurd rfl hy
      | cons y ys =>
        rw [List.singleton_append, intercalate_cons_cons]
        simp [List.intercalate, List.intersperse]
    | cons x2 xs =>
      rw [List.cons_append, List.cons_append, intercalate_cons_cons, intercalate_cons_cons,
        ← List.cons_append, ih (by simp)]
      simp [List.append_assoc]

/-- A marker `/m/` that occurs in a path is a segment `m` of the path that is
neither the first nor the last. -/
theorem marker_is_middle_segment (m : GoString) (hm : 47 ∉ m) (toks : List GoString)
    (htoks : ∀ tok ∈ toks, 47 ∉ tok) (hne : toks ≠ [])
    (hin : 47 :: m ++ [47] <:+: [47].intercalate toks) :
    ∃ pre post, pre ≠ [] ∧ post ≠ [] ∧ toks = pre ++ m :: post := by
  obtain ⟨a, b, hab⟩ := hin
  have hsplit : Split ([47].intercalate toks) 47 = toks :=
    List.splitOn_intercalate _ 47 htoks hne
  have hshape : [47].intercalate toks = a ++ 47 :: (m ++ 47 :: b) := by
    rw [← hab]
    simp [List.append_assoc]
  rw [hshape, Split_append_sep, Split_append_sep, Split_of_not_mem m 47 hm] at hsplit
  refine ⟨Split a 47, Split b 47, List.splitOnP_ne_nil _ a, List.splitOnP_ne_nil _ b, ?_⟩
  rw [← hsplit]
  rfl

/-- A segment `m` that is neither the first nor the last gives an occurrence of
the marker `/m/`. -/
theorem middle_segment_is_marker (m : GoString) (pre post : List GoString)
    (hpre : pre ≠ []) (hpost : post ≠ []) :
    47 :: m ++ [47] <:+: [47].intercalate (pre ++ m :: post) := by
  cases post with
  | nil => exact absurd rfl hpost
  | cons p post =>
    rw [intercalate_append (m :: p :: post) (by simp) pre hpre, intercalate_cons_cons]
    exact ⟨[47].intercalate pre, [47].intercalate (p :: post), by simp [List.append_assoc]⟩

/-- A middle segment of the non-empty segments is a middle segment of all the
segments. -/
theorem middle_segment_of_filter (m : GoString) (toks pre post : List GoString)
    (hpre : pre ≠ []) (hpost : post ≠ [])
    (h : toks.filter (fun s => decide (s ≠ [])) = pre ++ m :: post) :
    ∃ pre2 post2, pre2 ≠ [] ∧ post2 ≠ [] ∧ toks = pre2 ++ m :: post2 := by
  obtain ⟨l1, l2, htoks, hl1, hl2⟩ := List.filter_eq_append_iff.mp h
  obtain ⟨m1, m2, hl2eq, _, _, hm2⟩ := List.filter_eq_cons_iff.mp hl2
  refine ⟨l1 ++ m1, m2, ?_, ?_, ?_⟩
  · intro hnil
    have hl1nil : l1 = [] := (List.append_eq_nil.mp hnil).1
    rw [hl1nil] at hl1
    exact hpre hl1.symm
  · intro hnil
    rw [hnil] at hm2
    exact hpost hm2.symm
  · rw [htoks, hl2eq, List.append_assoc]

/-- The token loop on any directory segments, empty ones included, followed by
the file name. -/
theorem tokenLoop_segments (f : GoString) (hf : 3 ≤ f.length) (length : Int) :
    ∀ (ds : List GoString) (i : Nat) (buffer : GoString),
      (i : Int) + (ds.length : Int) + 1 = length →
      tokenLoop length i (ds ++ [f]) buffer =
        some (buffer
          ++ ((ds.filter fun s => decide (s ≠ [])).map fun d => d.take 1 ++ [46]).flatten
          ++ f.take (f.length - 3)) := by
  intro ds
  induction ds with
  | nil =>
    intro i buffer hlen
    exact tokenLoop_initials f hf length [] (by simp) i buffer hlen
  | cons d ds ih =>
    intro i buffer hlen
    have hlen1 : ((i + 1 : Nat) : Int) + (ds.length : Int) + 1 = length := by
      simp only [List.length_cons] at hlen
      push_cast at hlen ⊢
      omega
    cases d with
    | nil =>
      have hstep : tokenLoop length i ([] :: ds ++ [f]) buffer =
          tokenLoop length (i + 1) (ds ++ [f]) buffer := by
        simp only [List.cons_append, tokenLoop]
        rfl
      rw [hstep, ih (i + 1) buffer hlen1]
      simp
    | cons c d1 =>
      have hlt : (i : Int) < length - 1 := by
        simp only [List.length_cons] at hlen
        push_cast at hlen
        omega
      have hstep : tokenLoop length i ((c :: d1) :: ds ++ [f]) buffer =
          tokenLoop length (i + 1) (ds ++ [f]) (buffer ++ [c] ++ [46]) := by
        simp only [List.cons_append, tokenLoop, if_pos hlt]
        rfl
      rw [hstep, ih (i + 1) _ hlen1]
      simp [List.append_assoc]

/-- The tag of a marker-free path whose segments are `ds` and then `f`. -/
theorem fileTag_of_split (path : GoString) (ds : List GoString) (f : GoString)
    (hsplit : Split path 47 = ds ++ [f]) (hlen : 3 ≤ f.length)
    (hsrc : ¬ bytes "/src/" <:+: path) (hmod : ¬ bytes "/mod/" <:+: path) :
    fileTag path =
      some (((ds.filter fun s => decide (s ≠ [])).map fun d => d.take 1 ++ bytes ".").flatten
        ++ f.take (f.length - 3)) := by
  have hdot : bytes "." = [46] := by decide
  unfold fileTag
  rw [location_of_no_marker path hsrc hmod, Option.some_bind]
  unfold locationTag
  simp only [hsplit]
  rw [tokenLoop_segments f hlen _ ds 0 [] (by simp [List.length_append]), hdot]
  simp

/-- C15: for a path without marker whose last segment has at least 3 bytes, the
empty segments contribute nothing: the tag is built from the non-empty
directory segments and the file name, and it is the tag of the path with the
empty segments deleted; `/a//b/file.go` and `a/b/file.go` both give
`a.b.file`. -/
theorem fileTag_skips_empty_segments (path : GoString) (ds : List GoString) (f : GoString)
    (hsplit : Split path 47 = ds ++ [f]) (hlen : 3 ≤ f.length)
    (hsrc : ¬ bytes "/src/" <:+: path) (hmod : ¬ bytes "/mod/" <:+: path) :
    fileTag ((bytes "/").intercalate ((Split path 47).filter fun s => decide (s ≠ [])))
      = fileTag path ∧
    fileTag path =
      some (((ds.filter fun s => decide (s ≠ [])).map fun d => d.take 1 ++ bytes ".").flatten
        ++ f.take (f.length - 3)) ∧
    ((bytes "/").intercalate ((Split (bytes "/a//b/file.go") 47).filter
        fun s => decide (s ≠ [])) = bytes "a/b/file.go" ∧
      fileTag (bytes "/a//b/file.go") = some (bytes "a.b.file") ∧
      fileTag (bytes "a/b/file.go") = some (bytes "a.b.file")) := by
  have hsep : bytes "/" = [47] := by decide
  have hfne : f ≠ [] := by
    intro h
    rw [h] at hlen
    simp at hlen
  have htoks : ∀ tok ∈ ds ++ [f], 47 ∉ tok := by
    rw [← hsplit]
    exact Split_pieces path 47
  have hpath : [47].intercalate (ds ++ [f]) = path := by
    rw [← hsplit]
    exact List.intercalate_splitOn _ 47
  have hfilter : (ds ++ [f]).filter (fun s => decide (s ≠ []))
      = ds.filter (fun s => decide (s ≠ [])) ++ [f] := by
    rw [List.filter_append]
    simp [hfne]
  have htoks2 : ∀ tok ∈ ds.filter (fun s => decide (s ≠ [])) ++ [f], 47 ∉ tok := by
    intro tok htok
    rw [← hfilter] at htok
    exact htoks tok (List.mem_of_mem_filter htok)
  have hne2 : ds.filter (fun s => decide (s ≠ [])) ++ [f] ≠ [] := by simp
  have hkeep : ∀ m : GoString, 47 ∉ m → ¬ (47 :: m ++ [47] <:+: path) →
      ¬ (47 :: m ++ [47] <:+:
        [47].intercalate (ds.filter (fun s => decide (s ≠ [])) ++ [f])) := by
    intro m hm hnot hin
    obtain ⟨pre, post, hpre, hpost, heq⟩ :=
      marker_is_middle_segment m hm _ htoks2 hne2 hin
    obtain ⟨pre2, post2, hpre2, hpost2, heq2⟩ :=
      middle_segment_of_filter m (ds ++ [f]) pre post hpre hpost (hfilter.trans heq)
    apply hnot
    rw [← hpath, heq2]
    exact middle_segment_is_marker m pre2 post2 hpre2 hpost2
  have hsrc2 : ¬ bytes "/src/" <:+:
      [47].intercalate (ds.filter (fun s => decide (s ≠ [])) ++ [f]) :=
    hkeep (bytes "src") (by decide) hsrc
  have hmod2 : ¬ bytes "/mod/" <:+:
      [47].intercalate (ds.filter (fun s => decide (s ≠ [])) ++ [f]) :=
    hkeep (bytes "mod") (by decide) hmod
  have hsplit2 : Split ([47].intercalate (ds.filter (fun s => decide (s ≠ [])) ++ [f])) 47
      = ds.filter (fun s => decide (s ≠ [])) ++ [f] :=
    List.splitOn_intercalate _ 47 htoks2 hne2
  have htag := fileTag_of_split path ds f hsplit hlen hsrc hmod
  refine ⟨?_, htag, by decide, by decide, by decide⟩
  rw [htag, hsplit, hfilter, hsep,
    fileTag_of_split _ _ f hsplit2 hlen hsrc2 hmod2, List.filter_filter]
  simp

theorem fileTag_skips_empty_segments_witness :
    Split (bytes "//lib//net/dial.go") 47
      = [[], [], bytes "lib", [], bytes "net"] ++ [bytes "dial.go"] ∧
    fileTag ((bytes "/").intercalate
        ((Split (bytes "//lib//net/dial.go") 47).filter fun s => decide (s ≠ [])))
      = fileTag (bytes "//lib//net/dial.go") ∧
    fileTag (bytes "//lib//net/dial.go") = some (bytes "l.n.dial") :=
  ⟨by decide,
    (fileTag_skips_empty_segments (bytes "//lib//net/dial.go")
      [[], [], bytes "lib", [], bytes "net"] (bytes "dial.go")
      (by decide) (by decide) (by decide) (by decide)).1,
    by decide⟩

/-! ## Unrecognized severities -/

/-- C16: for a level outside the five recognized severities `setLevel` stores
the level and leaves `levelStr` as it was (empty on an event fresh from
`newGeneralLogEvent`); it is a total function and signals nothing.  For every
level, `setLevel` changes no field other than `level` and `levelStr`. -/
theorem setLevel_unrecognized (this : GeneralLogEvent) (level : LogLevel)
    (h : level ∉ [LogLevel.LOG_ERROR, LogLevel.LOG_WARN, LogLevel.LOG_INFO,
      LogLevel.LOG_DEBUG, LogLevel.LOG_TRACE]) :
    (setLevel this level).level = level ∧
    (setLevel this level).levelStr = this.levelStr ∧
    (∀ (env : Env) (pref : Preference) (now : Time) (zero : LogLevel) (pc : Nat)
      (file : GoString) (line : Int) (event : GeneralLogEvent),
      newGeneralLogEvent env pref now zero pc file line = some event →
      (setLevel event level).levelStr = []) ∧
    (∀ l : LogLevel,
      (setLevel this l).t = this.t ∧ (setLevel this l).pc = this.pc ∧
      (setLevel this l).file = this.file ∧ (setLevel this l).funcName = this.funcName ∧
      (setLevel this l).line = this.line ∧ (setLevel this l).message = this.message ∧
      (setLevel this l).published = this.published) := by
  have hframe : ∀ l : LogLevel,
      (setLevel this l).t = this.t ∧ (setLevel this l).pc = this.pc ∧
      (setLevel this l).file = this.file ∧ (setLevel this l).funcName = this.funcName ∧
      (setLevel this l).line = this.line ∧ (setLevel this l).message = this.message ∧
      (setLevel this l).published = this.published := by
    intro l
    cases l <;> exact ⟨rfl, rfl, rfl, rfl, rfl, rfl, rfl⟩
  have hfresh : ∀ (env : Env) (pref : Preference) (now : Time) (zero : LogLevel) (pc : Nat)
      (file : GoString) (line : Int) (event : GeneralLogEvent),
      newGeneralLogEvent env pref now zero pc file line = some event →
      event.levelStr = [] := by
    intro env pref now zero pc file line event hnew
    unfold newGeneralLogEvent at hnew
    by_cases hshow : pref.ShowMethod = true
    · simp only [hshow, if_true, Option.map_eq_some'] at hnew
      obtain ⟨name, _, hev⟩ := hnew
      rw [← hev]
    · simp only [hshow, Bool.false_eq_true, if_false, Option.some.injEq] at hnew
      rw [← hnew]
  cases level with
  | other code =>
    exact ⟨rfl, rfl, fun env pref now zero pc file line event hnew =>
      hfresh env pref now zero pc file line event hnew, hframe⟩
  | LOG_ERROR => simp at h
  | LOG_WARN => simp at h
  | LOG_INFO => simp at h
  | LOG_DEBUG => simp at h
  | LOG_TRACE => simp at h

theorem setLevel_unrecognized_witness :
    LogLevel.other 0 ∉ [LogLevel.LOG_ERROR, LogLevel.LOG_WARN, LogLevel.LOG_INFO,
      LogLevel.LOG_DEBUG, LogLevel.LOG_TRACE] ∧
    (setLevel sampleEvent (LogLevel.other 0)).level = LogLevel.other 0 ∧
    (setLevel sampleEvent (LogLevel.other 0)).levelStr = sampleEvent.levelStr :=
  ⟨by decide,
    (setLevel_unrecognized sampleEvent (LogLevel.other 0) (by decide)).1,
    (setLevel_unrecognized sampleEvent (LogLevel.other 0) (by decide)).2.1⟩

/-! ## The function name -/

/-- A list that contains `x` splits at the last `x`. -/
theorem exists_last_occurrence (x : Nat) :
    ∀ l : GoString, x ∈ l → ∃ a b, l = a ++ x :: b ∧ x ∉ b := by
  intro l
  induction l with
  | nil => intro h; exact absurd h (List.not_mem_nil x)
  | cons y l ih =>
    intro h
    by_cases hx : x ∈ l
    · obtain ⟨a, b, hab, hb⟩ := ih hx
      exact ⟨y :: a, b, by rw [hab]; rfl, hb⟩
    · rcases List.mem_cons.mp h with hxy | hxl
      · exact ⟨[], l, by rw [hxy]; rfl, hx⟩
      · exact absurd hxl hx

/-- The index of the last `.` of `a ++ "." ++ b` when `b` has none. -/
theorem LastIndex_dot (a b : GoString) (hb : 46 ∉ b) :
    LastIndex (a ++ 46 :: b) [46] = (a.length : Int) := by
  refine lastIndexFrom_eq (a ++ 46 :: b) [46] _ a.length (by simp) ?_ ?_
  · rw [List.drop_left]
    exact ⟨b, rfl⟩
  · intro j _ hj hpre
    have hdrop : (a ++ 46 :: b).drop j = b.drop (j - a.length - 1) := by
      have hj1 : j = a.length + (j - a.length - 1 + 1) := by omega
      rw [hj1, ← List.drop_drop, List.drop_left, List.drop_succ_cons]
      congr 1
      omega
    rw [hdrop] at hpre
    obtain ⟨t, ht⟩ := hpre
    have hmem : (46 : Nat) ∈ b.drop (j - a.length - 1) := by
      rw [← ht]
      simp
    exact hb (List.mem_of_mem_drop hmem)

/-- C17: `findFunctionName` returns the symbol name `n` of the resolver
unchanged when `n` has no `.`, and otherwise the part of `n` after its last
`.`; it always returns, and the result is a suffix of `n` without `.`. -/
theorem findFunctionName_spec (env : Env) (pc : Nat) :
    (46 ∉ env.FuncForPC pc → findFunctionName env pc = some (env.FuncForPC pc)) ∧
    (∀ a b : GoString, env.FuncForPC pc = a ++ 46 :: b → 46 ∉ b →
      findFunctionName env pc = some b) ∧
    ∃ r, findFunctionName env pc = some r ∧ r <:+ env.FuncForPC pc ∧ 46 ∉ r := by
  have hnone : 46 ∉ env.FuncForPC pc →
      findFunctionName env pc = some (env.FuncForPC pc) := by
    intro hno
    have habsent : ¬ [46] <:+: env.FuncForPC pc := fun hin => hno (hin.subset (by simp))
    unfold findFunctionName
    simp only [LastIndex_of_absent _ _ habsent]
    rfl
  have hlast : ∀ a b : GoString, env.FuncForPC pc = a ++ 46 :: b → 46 ∉ b →
      findFunctionName env pc = some b := by
    intro a b hn hb
    unfold findFunctionName
    simp only [hn, LastIndex_dot a b hb]
    have hnot : ¬ ((a.length : Int) < 0) := by omega
    have hcast : (a.length : Int) + 1 = ((a.length + 1 : Nat) : Int) := by push_cast; rfl
    rw [if_neg hnot, hcast, sliceFrom_of_le _ _ (by simp)]
    simp
  refine ⟨hnone, hlast, ?_⟩
  by_cases hdot : 46 ∈ env.FuncForPC pc
  · obtain ⟨a, b, hab, hb⟩ := exists_last_occurrence 46 _ hdot
    refine ⟨b, hlast a b hab hb, ?_, hb⟩
    rw [hab]
    exact ⟨a ++ [46], by simp⟩
  · exact ⟨env.FuncForPC pc, hnone hdot, List.suffix_refl _, hdot⟩

theorem findFunctionName_spec_witness :
    sampleEnv.FuncForPC 0 = bytes "github.com/fatima-go/app/service" ++ 46 :: bytes "Handle" ∧
    findFunctionName sampleEnv 0 = some (bytes "Handle") :=
  ⟨by decide,
    (findFunctionName_spec sampleEnv 0).2.1 (bytes "github.com/fatima-go/app/service")
      (bytes "Handle") (by decide) (by decide)⟩

end FatimaLog
